import Mathlib

/-!
Verification model of `src/DatabaseService.ts` (vector similarity store).

Modelling conventions:

* JavaScript numbers are modelled exactly: a plain JS double is a `JSNum`
  (NaN, the two infinities, or an exact rational); the usual caveat applies
  that the JS engine computes with IEEE doubles while we compute with exact
  rationals, which agrees on every comparison appearing in the claims.
* The SQLite/libsql storage engine is part of the program's semantics: the
  table created in `open()` is modelled as a list of rows, the SQL
  statements executed by the service are modelled by their documented
  engine semantics (`INSERT` appends a row after the engine's
  dimension/primary-key checks; `SELECT ... ORDER BY
  vector_distance_cos(...) ASC LIMIT ?` evaluates the distance for every
  row, sorts ascending — NULLs first — and truncates; a negative `LIMIT`
  bound means "no limit" in SQLite).  SQLite leaves the relative order of
  rows with equal sort keys undefined, so the documented contract is the
  relation `searchAdmissible` (any non-decreasing arrangement of the scored
  rows); the executable `searchSimilar` resolves ties deterministically in
  table-scan order, one admissible outcome among several.
* `vector_distance_cos(a, b) = 1 - dot(a,b) / (|a|·|b|)` is irrational in
  general, so a distance value is kept symbolically as `CosDistance.val dot P`
  meaning `1 - dot / √P` where `P = (∑ aᵢ²)·(∑ bᵢ²) > 0`; the zero-vector
  case produces a float NaN which SQLite converts to SQL NULL, modelled by
  `CosDistance.null`.  All comparisons and the `Math.round` computation on
  such values are defined by exact (decidable) rational sign/square
  analysis, and bridging lemmas relate them to the real-valued inequalities
  they encode.
* The Universal Sentence Encoder collaborator is out of scope: operations
  that embed text receive the produced embedding vector as an argument.
-/

/- Batteries marks the arithmetic of `Rat` `@[irreducible]`, which blocks
elaborator-side evaluation of concrete rational computations (the kernel is
unaffected).  Restore the default reducibility so concrete runs of the model
can be settled by `decide`/`rfl`. -/
set_option allowUnsafeReducibility true in
attribute [semireducible] Rat.mul Rat.add Rat.inv Rat.sub Rat.neg Rat.ofScientific

/-- Decidable equality for `Except`, needed to settle concrete runs of the
modelled operations by computation. -/
instance {ε α : Type} [DecidableEq ε] [DecidableEq α] : DecidableEq (Except ε α)
  | .ok a, .ok b =>
    if h : a = b then .isTrue (by rw [h]) else
      .isFalse (by intro hh; injection hh; exact h (by assumption))
  | .ok _, .error _ => .isFalse (by intro hh; injection hh)
  | .error _, .ok _ => .isFalse (by intro hh; injection hh)
  | .error e, .error f =>
    if h : e = f then .isTrue (by rw [h]) else
      .isFalse (by intro hh; injection hh; exact h (by assumption))

/-- A JavaScript number: NaN, an infinity, or a finite (exact) value. -/
inductive JSNum where
  | nan
  | posInf
  | negInf
  | rat (q : ℚ)
deriving DecidableEq, Repr

/-- JS `<=` on numbers: false whenever either side is NaN, usual order otherwise. -/
def JSNum.le : JSNum → JSNum → Bool
  | .nan, _ => false
  | _, .nan => false
  | .negInf, _ => true
  | _, .negInf => false
  | _, .posInf => true
  | .posInf, _ => false
  | .rat a, .rat b => a ≤ b

/-- `Number.isFinite` (lines 68-69 of DatabaseService.ts). -/
def JSNum.isFinite : JSNum → Bool
  | .rat _ => true
  | _ => false

/-- `getMatchQuality` (DatabaseService.ts lines 137-143), applied to a plain
JS number: successive inclusive `<=` threshold tests, first match wins. -/
def getMatchQuality (distance : JSNum) : String :=
  if distance.le (.rat 0.15) then "Excellent"
  else if distance.le (.rat 0.3) then "Very Good"
  else if distance.le (.rat 0.45) then "Good"
  else if distance.le (.rat 0.6) then "Fair"
  else "Poor"

/-- Decides `a / √Pa ≤ b / √Pb` (for `Pa, Pb > 0`) by sign analysis and
squaring, entirely within ℚ.  This is the comparison the SQL engine's
`ORDER BY` performs on two cosine-similarity quotients. -/
def quadLe (a Pa b Pb : ℚ) : Bool :=
  if 0 ≤ b then
    if a ≤ 0 then true else decide (a ^ 2 * Pb ≤ b ^ 2 * Pa)
  else
    if 0 ≤ a then false else decide (b ^ 2 * Pa ≤ a ^ 2 * Pb)

/-- A value of the SQL expression `vector_distance_cos(embedding, vector(?))`:
either SQL NULL (the engine's float NaN on a zero vector, converted to NULL
by SQLite), or the exact value `1 - dot / √P` with `P > 0`. -/
inductive CosDistance where
  | null
  | val (dot P : ℚ)
deriving DecidableEq, Repr

/-- Dot product of two rational vectors (the engine's `dot(a,b)`). -/
def dotQ (a b : List ℚ) : ℚ :=
  (List.zipWith (fun x y => x * y) a b).sum

/-- The engine's `vector_distance_cos(a, b) = 1 - dot(a,b)/(‖a‖·‖b‖)`,
kept symbolically; a zero vector makes the float computation 0/0 = NaN,
which SQLite returns as NULL. -/
def cosDistance (a b : List ℚ) : CosDistance :=
  let P := dotQ a a * dotQ b b
  if P = 0 then .null else .val (dotQ a b) P

/-- SQL `ORDER BY ... ASC` comparison on distance values: NULLs sort first
(SQLite default), and `1 - a/√Pa ≤ 1 - b/√Pb ⟺ b/√Pb ≤ a/√Pa`. -/
def distLe : CosDistance → CosDistance → Bool
  | .null, _ => true
  | .val _ _, .null => false
  | .val a Pa, .val b Pb => quadLe b Pb a Pa

/-- Fuel-driven binary search for the integer square root: maintains
`lo² ≤ D < hi²` and halves the interval each step. -/
def sqrtGo (D : ℕ) : ℕ → ℕ → ℕ → ℕ
  | 0, lo, _ => lo
  | f + 1, lo, hi =>
    if hi ≤ lo + 1 then lo
    else
      let mid := (lo + hi) / 2
      if mid * mid ≤ D then sqrtGo D f mid hi else sqrtGo D f lo mid

/-- `⌊√D⌋`, by binary search (a reduction-friendly equivalent of the
library integer square root). -/
def natSqrt (D : ℕ) : ℕ :=
  sqrtGo D (D + 1) 0 (D + 1)

/-- `⌊dot/√P⌋` for `dot ≥ 0 < P`, via `⌊√(dot²/P)⌋ = ⌊√⌊dot²/P⌋⌋`. -/
def floorPosQuad (dot P : ℚ) : ℤ :=
  let t : ℚ := dot ^ 2 / P
  (natSqrt (t.num.toNat / t.den) : ℤ)

/-- `⌊dot/√P⌋` for `P > 0`: the negative case reflects the positive one,
adjusting by one unless the quotient is exactly an integer. -/
def floorQuad (dot P : ℚ) : ℤ :=
  if 0 ≤ dot then floorPosQuad dot P
  else
    let g := floorPosQuad (-dot) P
    if quadLe (-dot) P (g : ℚ) 1 then -g else -g - 1

/-- `⌊x + 1/2⌋` for `x = dot / √P` (`P > 0`): JS `Math.round(dot / √P)`. -/
def floorHalf (dot P : ℚ) : ℤ :=
  let f := floorQuad dot P
  if quadLe ((f : ℚ) + 1 / 2) 1 dot P then f + 1 else f

/-- JS `Math.round((1 - distance) * 100)` (line 122): on a NULL distance,
JS coerces `null` to 0, so the result is `Math.round(100) = 100`; otherwise
`(1 - d) * 100 = 100·dot/√P`. -/
def jsSimilarity : CosDistance → ℤ
  | .null => 100
  | .val dot P => floorHalf (100 * dot) P

/-- `getMatchQuality` (lines 137-143) applied to the SQL distance value of a
search row: `d ≤ c ⟺ 1 - dot/√P ≤ c ⟺ (1-c)/√1 ≤ dot/√P`; a NULL distance
is coerced by the JS `<=` to 0, hence classified "Excellent". -/
def matchQualityD : CosDistance → String
  | .null => "Excellent"
  | .val dot P =>
    if quadLe (1 - 0.15) 1 dot P then "Excellent"
    else if quadLe (1 - 0.3) 1 dot P then "Very Good"
    else if quadLe (1 - 0.45) 1 dot P then "Good"
    else if quadLe (1 - 0.6) 1 dot P then "Fair"
    else "Poor"

/-- One row of the `embeddings` table (uuid TEXT PRIMARY KEY, content TEXT,
embedding F32_BLOB(512)). -/
structure EmbeddingRow where
  uuid : String
  content : String
  embedding : List ℚ
deriving DecidableEq, Repr

/-- The `DatabaseService` state: whether `this.db` has been set by `open()`,
and the contents of the `embeddings` table. -/
structure DatabaseService where
  dbOpen : Bool
  rows : List EmbeddingRow
deriving DecidableEq, Repr

/-- `vectorDimension` (line 8). -/
def vectorDimension : ℕ := 512

/-- Failure modes of the service.  `typeError`, `dimensionMismatch` and
`uniqueViolation` model what the code actually throws (a JS TypeError when
`this.db` is undefined; the engine's errors for a vector whose dimension
disagrees and for a duplicate primary key).  `notOpen` is the structured
error kind named by the spec's error taxonomy; it is declared here so the
spec's claim can be stated, and is never produced by the code. -/
inductive JsError where
  | typeError (msg : String)
  | dimensionMismatch
  | uniqueViolation
  | modelMissing
  | notOpen
deriving DecidableEq, Repr

/-- `toVector` (lines 65-76): each non-finite component is replaced by 0,
then the vector is serialised as a bracketed comma-joined literal which the
engine's `vector(?)` parses back; the serialise/parse round trip is the
identity, so the model keeps the numeric content. -/
def toVector (embedding : List JSNum) : List ℚ :=
  embedding.map fun n => match n with
    | .rat q => q
    | _ => 0

/-- `open()` (lines 27-59): (re)opens the database, drops the `embeddings`
table if it exists and recreates it empty, then creates the vector index.
The success path is modelled (storage availability assumed). -/
def openDb (_s : DatabaseService) : DatabaseService :=
  { dbOpen := true, rows := [] }

/-- `storeEmbedding` (lines 78-98) with the embedding supplied by the caller
(when absent, the code first asks the embedding model; that collaborator is
out of scope and its output is this argument).  The freshly generated
`Crypto.randomUUID()` is passed in as `uuid`.  Accessing
`this.db.execute` on an unopened service throws a TypeError; the engine
rejects a vector whose dimension differs from the declared
`F32_BLOB(512)` and a duplicate primary key, and otherwise appends the row.
On failure the table is unchanged and the error propagates (the catch block
rethrows). -/
def storeEmbedding (s : DatabaseService) (uuid content : String)
    (embedding : List JSNum) : DatabaseService × Except JsError String :=
  if s.dbOpen = false then
    (s, .error (.typeError "Cannot read property execute of undefined"))
  else
    let v := toVector embedding
    if v.length ≠ vectorDimension then (s, .error .dimensionMismatch)
    else if s.rows.any (fun r => r.uuid == uuid) then (s, .error .uniqueViolation)
    else ({ s with rows := s.rows ++ [{ uuid := uuid, content := content, embedding := v }] },
          .ok uuid)

/-- Stable insertion: the new element is placed after every element already
ranked `≤` it, so equal keys keep their existing relative order. -/
def insertD (le : α → α → Bool) (x : α) : List α → List α
  | [] => [x]
  | y :: ys => if le y x then y :: insertD le x ys else x :: y :: ys

/-- Stable sort by repeated insertion in scan order. -/
def isortD (le : α → α → Bool) (l : List α) : List α :=
  l.foldl (fun acc x => insertD le x acc) []

/-- Ordering of scored rows by their distance value. -/
def distPairLe (p q : EmbeddingRow × CosDistance) : Bool :=
  distLe p.2 q.2

/-- One entry of the list returned by `searchSimilar` (lines 120-130). -/
structure SearchResult where
  content : String
  similarity : ℤ
  id : String
  matchQuality : String
  distance : CosDistance
deriving DecidableEq, Repr

/-- The row-to-result mapping of lines 120-130. -/
def mkResult (p : EmbeddingRow × CosDistance) : SearchResult :=
  { content := p.1.content
    similarity := jsSimilarity p.2
    id := p.1.uuid
    matchQuality := matchQualityD p.2
    distance := p.2 }

/-- `searchSimilar` (lines 100-135) with the query embedding supplied (the
code derives it from `queryText` via the embedding model, which is out of
scope).  Accessing `this.db.execute` on an unopened service throws a
TypeError.  The SQL query computes `vector_distance_cos` for every row —
erroring if any row's dimension disagrees with the query's; on an empty
table no row is evaluated and no error can arise — sorts ascending (NULLs
first) and truncates to `k` rows, where a negative `LIMIT` bound means no
limit (SQLite semantics).  SQLite leaves the order of rows with equal sort
keys undefined: this executable model fixes table-scan order for ties (one
admissible outcome); the full documented contract is `searchAdmissible`. -/
def searchSimilar (s : DatabaseService) (queryEmbedding : List JSNum)
    (k : ℤ) : Except JsError (List SearchResult) :=
  if s.dbOpen = false then
    .error (.typeError "Cannot read property execute of undefined")
  else
    let q := toVector queryEmbedding
    if s.rows.any (fun r => r.embedding.length != q.length) then
      .error .dimensionMismatch
    else
      let scored := s.rows.map (fun r => (r, cosDistance r.embedding q))
      let sorted := isortD distPairLe scored
      let limited := if k < 0 then sorted else sorted.take k.toNat
      .ok (limited.map mkResult)

/-- The documented contract of the SQL query `SELECT ... ORDER BY
vector_distance_cos(...) ASC LIMIT ?`: the engine returns the scored rows
arranged in SOME non-decreasing-distance order — the relative order of rows
with equal sort keys, and hence which tied rows survive the `LIMIT` cut, is
explicitly left undefined by SQLite — truncated by the `LIMIT` semantics
(negative bound = no limit).  `res` is an admissible outcome iff it arises
from some sorted permutation of the scored rows. -/
def searchAdmissible (s : DatabaseService) (qv : List JSNum) (k : ℤ)
    (res : List SearchResult) : Prop :=
  ∃ ranking : List (EmbeddingRow × CosDistance),
    ranking.Perm (s.rows.map fun r => (r, cosDistance r.embedding (toVector qv))) ∧
    ranking.Pairwise (fun a b => distPairLe a b = true) ∧
    res = (if k < 0 then ranking else ranking.take k.toNat).map mkResult

/-! ### Properties of the exact comparison `quadLe` -/

/-- Characterisation of `quadLe` by its sign/square case analysis. -/
theorem quadLe_iff (a Pa b Pb : ℚ) :
    quadLe a Pa b Pb = true ↔
      ((0 ≤ b ∧ a ≤ 0) ∨ (0 ≤ b ∧ 0 < a ∧ a ^ 2 * Pb ≤ b ^ 2 * Pa) ∨
        (b < 0 ∧ a < 0 ∧ b ^ 2 * Pa ≤ a ^ 2 * Pb)) := by
  unfold quadLe
  split_ifs with hb ha ha
  · constructor
    · intro _; exact Or.inl ⟨hb, ha⟩
    · intro _; rfl
  · rw [decide_eq_true_iff]
    constructor
    · intro h; exact Or.inr (Or.inl ⟨hb, lt_of_not_ge ha, h⟩)
    · rintro (⟨_, h2⟩ | ⟨_, _, h3⟩ | ⟨h1, _, _⟩)
      · exact absurd h2 ha
      · exact h3
      · exact absurd hb (not_le.mpr h1)
  · constructor
    · intro h; cases h
    · rintro (⟨h1, _⟩ | ⟨h1, _, _⟩ | ⟨_, h2, _⟩)
      · exact absurd h1 hb
      · exact absurd h1 hb
      · exact absurd h2 (not_lt.mpr ha)
  · rw [decide_eq_true_iff]
    constructor
    · intro h; exact Or.inr (Or.inr ⟨lt_of_not_ge hb, lt_of_not_ge ha, h⟩)
    · rintro (⟨h1, _⟩ | ⟨h1, _, _⟩ | ⟨_, _, h3⟩)
      · exact absurd h1 hb
      · exact absurd h1 hb
      · exact h3

/-- `quadLe` is total (regardless of the norm products: the sign analysis
only compares products of squares). -/
theorem quadLe_total (a Pa b Pb : ℚ) :
    quadLe a Pa b Pb = true ∨ quadLe b Pb a Pa = true := by
  rw [quadLe_iff, quadLe_iff]
  rcases le_or_lt a 0 with ha | ha <;> rcases le_or_lt b 0 with hb | hb
  · rcases le_total (b ^ 2 * Pa) (a ^ 2 * Pb) with h | h
    · rcases lt_or_eq_of_le hb with hb' | hb'
      · rcases lt_or_eq_of_le ha with ha' | ha'
        · exact Or.inl (Or.inr (Or.inr ⟨hb', ha', h⟩))
        · exact Or.inr (Or.inl ⟨le_of_eq ha'.symm, hb⟩)
      · exact Or.inl (Or.inl ⟨le_of_eq hb'.symm, ha⟩)
    · rcases lt_or_eq_of_le ha with ha' | ha'
      · rcases lt_or_eq_of_le hb with hb' | hb'
        · exact Or.inr (Or.inr (Or.inr ⟨ha', hb', h⟩))
        · exact Or.inl (Or.inl ⟨le_of_eq hb'.symm, ha⟩)
      · exact Or.inr (Or.inl ⟨le_of_eq ha'.symm, hb⟩)
  · exact Or.inl (Or.inl ⟨hb.le, ha⟩)
  · exact Or.inr (Or.inl ⟨ha.le, hb⟩)
  · rcases le_total (a ^ 2 * Pb) (b ^ 2 * Pa) with h | h
    · exact Or.inl (Or.inr (Or.inl ⟨hb.le, ha, h⟩))
    · exact Or.inr (Or.inr (Or.inl ⟨ha.le, hb, h⟩))

/-- `quadLe` is transitive (for positive norm products). -/
theorem quadLe_trans (a Pa b Pb c Pc : ℚ) (hPa : 0 < Pa) (hPb : 0 < Pb)
    (hPc : 0 < Pc) (h1 : quadLe a Pa b Pb = true) (h2 : quadLe b Pb c Pc = true) :
    quadLe a Pa c Pc = true := by
  rw [quadLe_iff] at h1 h2 ⊢
  rcases h1 with ⟨hb, ha⟩ | ⟨hb, ha, e1⟩ | ⟨hb, ha, e1⟩ <;>
    rcases h2 with ⟨hc, hb'⟩ | ⟨hc, hb', e2⟩ | ⟨hc, hb', e2⟩
  · exact Or.inl ⟨hc, ha⟩
  · exact Or.inl ⟨hc, ha⟩
  · exact absurd hb (not_le.mpr hb')
  · have hb0 : b = 0 := le_antisymm hb' hb
    rw [hb0] at e1
    exact absurd e1 (by push_neg; nlinarith [mul_pos (pow_pos ha 2) hPb])
  · refine Or.inr (Or.inl ⟨hc, ha, ?_⟩)
    nlinarith [mul_le_mul_of_nonneg_right e1 hPc.le, mul_le_mul_of_nonneg_right e2 hPa.le]
  · exact absurd hb (not_le.mpr hb')
  · exact Or.inl ⟨hc, ha.le⟩
  · exact absurd hb' (not_lt.mpr hb.le)
  · refine Or.inr (Or.inr ⟨hc, ha, ?_⟩)
    nlinarith [mul_le_mul_of_nonneg_right e1 hPc.le, mul_le_mul_of_nonneg_right e2 hPa.le]

/-- On plain rationals (`P = 1`), `quadLe` is the usual order. -/
theorem quadLe_one_iff (a b : ℚ) : quadLe a 1 b 1 = true ↔ a ≤ b := by
  rw [quadLe_iff]
  constructor
  · rintro (⟨hb, ha⟩ | ⟨hb, ha, e⟩ | ⟨hb, ha, e⟩)
    · exact ha.trans hb
    · nlinarith
    · nlinarith
  · intro h
    rcases le_or_lt a 0 with ha | ha
    · rcases le_or_lt 0 b with hb | hb
      · exact Or.inl ⟨hb, ha⟩
      · exact Or.inr (Or.inr ⟨hb, lt_of_le_of_lt h hb, by nlinarith⟩)
    · exact Or.inr (Or.inl ⟨ha.le.trans h, ha, by nlinarith⟩)

/-- Negating both quotients swaps a `quadLe` comparison. -/
theorem quadLe_neg_iff (a Pa b Pb : ℚ) (hPa : 0 < Pa) (hPb : 0 < Pb) :
    quadLe (-b) Pb (-a) Pa = true ↔ quadLe a Pa b Pb = true := by
  rw [quadLe_iff, quadLe_iff]
  constructor
  · rintro (⟨ha, hb⟩ | ⟨ha, hb, e⟩ | ⟨ha, hb, e⟩)
    · exact Or.inl ⟨by linarith, by linarith⟩
    · have ha0 : a < 0 := by
        rcases lt_or_eq_of_le ha with h | h
        · linarith
        · exfalso
          have ha' : a = 0 := by linarith
          rw [ha'] at e
          nlinarith [mul_pos (pow_pos (show (0 : ℚ) < -b by linarith) 2) hPa]
      refine Or.inr (Or.inr ⟨by linarith, ha0, ?_⟩)
      calc b ^ 2 * Pa = (-b) ^ 2 * Pa := by ring
        _ ≤ (-a) ^ 2 * Pb := e
        _ = a ^ 2 * Pb := by ring
    · refine Or.inr (Or.inl ⟨by linarith, by linarith, ?_⟩)
      calc a ^ 2 * Pb = (-a) ^ 2 * Pb := by ring
        _ ≤ (-b) ^ 2 * Pa := e
        _ = b ^ 2 * Pa := by ring
  · rintro (⟨hb, ha⟩ | ⟨hb, ha, e⟩ | ⟨hb, ha, e⟩)
    · exact Or.inl ⟨by linarith, by linarith⟩
    · have hb0 : 0 < b := by
        rcases lt_or_eq_of_le hb with h | h
        · exact h
        · rw [← h] at e
          exact absurd e (by push_neg; nlinarith [mul_pos (pow_pos ha 2) hPb])
      refine Or.inr (Or.inr ⟨by linarith, by linarith, ?_⟩)
      calc (-a) ^ 2 * Pb = a ^ 2 * Pb := by ring
        _ ≤ b ^ 2 * Pa := e
        _ = (-b) ^ 2 * Pa := by ring
    · refine Or.inr (Or.inl ⟨by linarith, by linarith, ?_⟩)
      calc (-b) ^ 2 * Pa = b ^ 2 * Pa := by ring
        _ ≤ a ^ 2 * Pb := e
        _ = (-a) ^ 2 * Pb := by ring

/-- Lowering the rational side preserves a `quadLe` comparison. -/
theorem quadLe_mono (c c' dot P : ℚ) (hP : 0 < P) (hcc : c' ≤ c)
    (h : quadLe c 1 dot P = true) : quadLe c' 1 dot P = true :=
  quadLe_trans c' 1 c 1 dot P one_pos one_pos hP ((quadLe_one_iff c' c).mpr hcc) h

/-- `quadLe` decides exactly the real inequality `a/√Pa ≤ b/√Pb` it encodes
(stated with the square roots abstracted as positive reals). -/
theorem quadLe_iff_real (a Pa b Pb : ℚ) (sa sb : ℝ) (hsa : 0 < sa) (hsb : 0 < sb)
    (ha2 : sa ^ 2 = ((Pa : ℚ) : ℝ)) (hb2 : sb ^ 2 = ((Pb : ℚ) : ℝ)) :
    quadLe a Pa b Pb = true ↔ (a : ℝ) / sa ≤ (b : ℝ) / sb := by
  rw [quadLe_iff, div_le_div_iff hsa hsb]
  constructor
  · rintro (⟨hb, ha⟩ | ⟨hb, ha, e⟩ | ⟨hb, ha, e⟩)
    · have h1 : (a : ℝ) ≤ 0 := by exact_mod_cast ha
      have h2 : (0 : ℝ) ≤ (b : ℝ) := by exact_mod_cast hb
      nlinarith
    · have e' : (a : ℝ) ^ 2 * sb ^ 2 ≤ (b : ℝ) ^ 2 * sa ^ 2 := by
        rw [ha2, hb2]; exact_mod_cast e
      have ha' : (0 : ℝ) < (a : ℝ) := by exact_mod_cast ha
      have hb' : (0 : ℝ) ≤ (b : ℝ) := by exact_mod_cast hb
      nlinarith [mul_pos ha' hsb, mul_nonneg hb' hsa.le]
    · have e' : (b : ℝ) ^ 2 * sa ^ 2 ≤ (a : ℝ) ^ 2 * sb ^ 2 := by
        rw [ha2, hb2]; exact_mod_cast e
      have ha' : (a : ℝ) < 0 := by exact_mod_cast ha
      have hb' : (b : ℝ) < 0 := by exact_mod_cast hb
      nlinarith [mul_pos (neg_pos.mpr ha') hsb, mul_pos (neg_pos.mpr hb') hsa]
  · intro h
    rcases le_or_lt 0 b with hb | hb
    · rcases le_or_lt a 0 with ha | ha
      · exact Or.inl ⟨hb, ha⟩
      · refine Or.inr (Or.inl ⟨hb, ha, ?_⟩)
        have ha' : (0 : ℝ) < (a : ℝ) := by exact_mod_cast ha
        have hb' : (0 : ℝ) ≤ (b : ℝ) := by exact_mod_cast hb
        have e' : (a : ℝ) ^ 2 * sb ^ 2 ≤ (b : ℝ) ^ 2 * sa ^ 2 := by
          nlinarith [mul_pos ha' hsb, mul_nonneg hb' hsa.le]
        rw [ha2, hb2] at e'
        exact_mod_cast e'
    · rcases le_or_lt 0 a with ha | ha
      · exfalso
        have ha' : (0 : ℝ) ≤ (a : ℝ) := by exact_mod_cast ha
        have hb' : (b : ℝ) < 0 := by exact_mod_cast hb
        nlinarith [mul_nonneg ha' hsb.le, mul_pos (neg_pos.mpr hb') hsa]
      · refine Or.inr (Or.inr ⟨hb, ha, ?_⟩)
        have ha' : (a : ℝ) < 0 := by exact_mod_cast ha
        have hb' : (b : ℝ) < 0 := by exact_mod_cast hb
        have e' : (b : ℝ) ^ 2 * sa ^ 2 ≤ (a : ℝ) ^ 2 * sb ^ 2 := by
          nlinarith [mul_pos (neg_pos.mpr ha') hsb, mul_pos (neg_pos.mpr hb') hsa]
        rw [ha2, hb2] at e'
        exact_mod_cast e'

/-! ### Certification of the integer square root and the rounding floor -/

/-- The binary search keeps its invariant and lands on the integer square
root once the fuel covers the initial interval. -/
theorem sqrtGo_spec (D : ℕ) :
    ∀ (f lo hi : ℕ), lo * lo ≤ D → D < hi * hi → hi ≤ lo + 2 ^ f →
      sqrtGo D f lo hi * sqrtGo D f lo hi ≤ D ∧
        D < (sqrtGo D f lo hi + 1) * (sqrtGo D f lo hi + 1) := by
  intro f
  induction f with
  | zero =>
    intro lo hi hlo hhi hgap
    simp only [sqrtGo]
    refine ⟨hlo, ?_⟩
    have h1 : hi ≤ lo + 1 := by simpa using hgap
    calc D < hi * hi := hhi
      _ ≤ (lo + 1) * (lo + 1) := Nat.mul_le_mul h1 h1
  | succ f ih =>
    intro lo hi hlo hhi hgap
    rw [sqrtGo]
    by_cases hsmall : hi ≤ lo + 1
    · rw [if_pos hsmall]
      exact ⟨hlo, lt_of_lt_of_le hhi (Nat.mul_le_mul hsmall hsmall)⟩
    · rw [if_neg hsmall]
      have hpow : 2 ^ (f + 1) = 2 ^ f + 2 ^ f := by rw [pow_succ]; ring
      have hp1 : 1 ≤ 2 ^ f := Nat.one_le_two_pow
      by_cases hmid : ((lo + hi) / 2) * ((lo + hi) / 2) ≤ D
      · simp only [hmid, if_true]
        exact ih ((lo + hi) / 2) hi hmid hhi (by omega)
      · simp only [hmid, if_false]
        exact ih lo ((lo + hi) / 2) hlo (by omega) (by omega)

/-- `natSqrt` is the integer square root. -/
theorem natSqrt_spec (D : ℕ) :
    natSqrt D * natSqrt D ≤ D ∧ D < (natSqrt D + 1) * (natSqrt D + 1) := by
  have hgap : D + 1 ≤ 0 + 2 ^ (D + 1) := by
    have := Nat.lt_two_pow (D + 1)
    omega
  exact sqrtGo_spec D (D + 1) 0 (D + 1) (by simp) (by nlinarith) hgap

/-- For a nonnegative quotient, `floorPosQuad` computes a nonnegative lower
integer bound whose successor exceeds the quotient (both facts expressed by
the decidable comparison `quadLe`). -/
theorem floorPosQuad_spec (dot P : ℚ) (hdot : 0 ≤ dot) (hP : 0 < P) :
    0 ≤ floorPosQuad dot P ∧
      quadLe ((floorPosQuad dot P : ℤ) : ℚ) 1 dot P = true ∧
      quadLe (((floorPosQuad dot P : ℤ) : ℚ) + 1) 1 dot P = false := by
  have key : ∀ s : ℕ, floorPosQuad dot P = (s : ℤ) →
      (s * s : ℚ) ≤ dot ^ 2 / P → (dot ^ 2 / P : ℚ) < (s + 1) * (s + 1) →
      0 ≤ floorPosQuad dot P ∧
        quadLe ((floorPosQuad dot P : ℤ) : ℚ) 1 dot P = true ∧
        quadLe (((floorPosQuad dot P : ℤ) : ℚ) + 1) 1 dot P = false := by
    intro s hs hlo hhi
    rw [hs]
    refine ⟨Int.ofNat_nonneg s, ?_, ?_⟩
    · rw [quadLe_iff]
      rcases Nat.eq_zero_or_pos s with h0 | hpos
      · subst h0
        exact Or.inl ⟨hdot, by norm_num⟩
      · refine Or.inr (Or.inl ⟨hdot, by push_cast; exact_mod_cast hpos, ?_⟩)
        have h1 : ((s : ℚ)) ^ 2 ≤ dot ^ 2 / P := by
          calc ((s : ℚ)) ^ 2 = (s * s : ℚ) := by ring
            _ ≤ dot ^ 2 / P := hlo
        calc ((s : ℤ) : ℚ) ^ 2 * P = ((s : ℚ)) ^ 2 * P := by push_cast; ring
          _ ≤ (dot ^ 2 / P) * P := mul_le_mul_of_nonneg_right h1 hP.le
          _ = dot ^ 2 := div_mul_cancel₀ _ (ne_of_gt hP)
          _ = dot ^ 2 * 1 := by ring
    · apply Bool.eq_false_iff.mpr
      intro hcontra
      rw [quadLe_iff] at hcontra
      rcases hcontra with ⟨_, hle⟩ | ⟨_, _, e⟩ | ⟨hneg, _, _⟩
      · have : (0 : ℚ) ≤ (s : ℚ) := by positivity
        push_cast at hle
        linarith
      · have h2 : ((s : ℚ) + 1) ^ 2 ≤ dot ^ 2 / P := by
          rw [le_div_iff hP]
          calc ((s : ℚ) + 1) ^ 2 * P = (((s : ℤ) : ℚ) + 1) ^ 2 * P := by push_cast; ring
            _ ≤ dot ^ 2 * 1 := e
            _ = dot ^ 2 := by ring
        have h3 : (dot ^ 2 / P : ℚ) < ((s : ℚ) + 1) ^ 2 := by
          calc (dot ^ 2 / P : ℚ) < (s + 1) * (s + 1) := hhi
            _ = ((s : ℚ) + 1) ^ 2 := by push_cast; ring
        linarith
      · linarith
  -- instantiate the helper with the computed integer square root
  unfold floorPosQuad
  have ht : (0 : ℚ) ≤ dot ^ 2 / P := div_nonneg (sq_nonneg dot) hP.le
  have hnum : (0 : ℤ) ≤ (dot ^ 2 / P : ℚ).num := Rat.num_nonneg.mpr ht
  have hden : (0 : ℕ) < (dot ^ 2 / P : ℚ).den := (dot ^ 2 / P : ℚ).den_pos
  have hsq := natSqrt_spec ((dot ^ 2 / P : ℚ).num.toNat / (dot ^ 2 / P : ℚ).den)
  apply key (natSqrt ((dot ^ 2 / P : ℚ).num.toNat / (dot ^ 2 / P : ℚ).den))
  · rfl
  · -- (s*s : ℚ) ≤ t, via s*s ≤ n and (n : ℚ) ≤ t
    set t : ℚ := dot ^ 2 / P with hts
    set n : ℕ := t.num.toNat / t.den with hns
    set s : ℕ := natSqrt n with hss
    have hn_le : (n : ℚ) ≤ t := by
      have h1 : n * t.den ≤ t.num.toNat := Nat.div_mul_le_self _ _
      have h2 : ((n * t.den : ℕ) : ℚ) ≤ ((t.num.toNat : ℕ) : ℚ) := by exact_mod_cast h1
      have h3 : ((t.num.toNat : ℕ) : ℤ) = t.num := Int.toNat_of_nonneg hnum
      have h4 : (n : ℚ) * (t.den : ℚ) ≤ (t.num : ℚ) := by
        push_cast at h2
        rw [← h3]
        push_cast
        exact h2
      have h5 : (0 : ℚ) < (t.den : ℚ) := by exact_mod_cast hden
      rw [← Rat.num_div_den t, le_div_iff h5]
      exact h4
    have hss_le : (s * s : ℚ) ≤ (n : ℚ) := by exact_mod_cast hsq.1
    calc (s * s : ℚ) ≤ (n : ℚ) := hss_le
      _ ≤ t := hn_le
  · -- t < (s+1)*(s+1), via t < n+1 and n+1 ≤ (s+1)*(s+1)
    set t : ℚ := dot ^ 2 / P with hts
    set n : ℕ := t.num.toNat / t.den with hns
    set s : ℕ := natSqrt n with hss
    have ht_lt : t < (n : ℚ) + 1 := by
      have h1 : t.num.toNat < t.den * n + t.den := by
        calc t.num.toNat = t.den * n + t.num.toNat % t.den := (Nat.div_add_mod _ _).symm
          _ < t.den * n + t.den := Nat.add_lt_add_left (Nat.mod_lt _ hden) _
      have h5 : (0 : ℚ) < (t.den : ℚ) := by exact_mod_cast hden
      have h3 : ((t.num.toNat : ℕ) : ℤ) = t.num := Int.toNat_of_nonneg hnum
      have h2 : (t.num : ℚ) < (t.den : ℚ) * n + t.den := by
        rw [← h3]
        exact_mod_cast h1
      rw [← Rat.num_div_den t, div_lt_iff h5]
      calc (t.num : ℚ) < (t.den : ℚ) * n + t.den := h2
        _ = ((n : ℚ) + 1) * (t.den : ℚ) := by ring
    have hs1 : ((n : ℚ)) + 1 ≤ ((s : ℚ) + 1) * ((s : ℚ) + 1) := by
      have := hsq.2
      have h6 : (n : ℕ) + 1 ≤ (s + 1) * (s + 1) := this
      calc ((n : ℚ)) + 1 = (((n + 1 : ℕ)) : ℚ) := by push_cast; ring
        _ ≤ (((s + 1) * (s + 1) : ℕ) : ℚ) := by exact_mod_cast h6
        _ = ((s : ℚ) + 1) * ((s : ℚ) + 1) := by push_cast; ring
    calc t < (n : ℚ) + 1 := ht_lt
      _ ≤ ((s : ℚ) + 1) * ((s : ℚ) + 1) := hs1

/-- `floorQuad dot P` is `⌊dot/√P⌋`: it is `≤` the quotient and its
successor is not (expressed via `quadLe`). -/
theorem floorQuad_spec (dot P : ℚ) (hP : 0 < P) :
    quadLe ((floorQuad dot P : ℤ) : ℚ) 1 dot P = true ∧
      quadLe (((floorQuad dot P : ℤ) : ℚ) + 1) 1 dot P = false := by
  unfold floorQuad
  by_cases hdot : 0 ≤ dot
  · rw [if_pos hdot]
    exact (floorPosQuad_spec dot P hdot hP).2
  · rw [if_neg hdot]
    have hneg : 0 ≤ -dot := by linarith
    obtain ⟨hg0, hg1, hg2⟩ := floorPosQuad_spec (-dot) P hneg hP
    by_cases hint : quadLe (-dot) P ((floorPosQuad (-dot) P : ℤ) : ℚ) 1 = true
    · rw [if_pos hint]
      constructor
      · -- `-g ≤ dot/√P` from `-dot/√P ≤ g`
        have h := (quadLe_neg_iff (-dot) P ((floorPosQuad (-dot) P : ℤ) : ℚ) 1 hP one_pos).mpr hint
        rw [neg_neg] at h
        have hcast : ((-floorPosQuad (-dot) P : ℤ) : ℚ) = -((floorPosQuad (-dot) P : ℤ) : ℚ) := by
          push_cast; ring
        rw [hcast]
        exact h
      · -- `¬ (-g + 1 ≤ dot/√P)`: otherwise `-g + 1 ≤ -g`
        apply Bool.eq_false_iff.mpr
        intro hcontra
        have hswap := (quadLe_neg_iff ((floorPosQuad (-dot) P : ℤ) : ℚ) 1 (-dot) P one_pos hP).mpr hg1
        rw [neg_neg] at hswap
        have hcast : ((-floorPosQuad (-dot) P : ℤ) : ℚ) + 1 =
            -((floorPosQuad (-dot) P : ℤ) : ℚ) + 1 := by push_cast; ring
        rw [hcast] at hcontra
        have htr := quadLe_trans (-((floorPosQuad (-dot) P : ℤ) : ℚ) + 1) 1 dot P
          (-((floorPosQuad (-dot) P : ℤ) : ℚ)) 1 one_pos hP one_pos hcontra hswap
        rw [quadLe_one_iff] at htr
        linarith
    · rw [if_neg hint]
      constructor
      · -- `-g - 1 ≤ dot/√P` because `-dot/√P ≤ g + 1` (totality against hg2)
        have htot := quadLe_total (-dot) P (((floorPosQuad (-dot) P : ℤ) : ℚ) + 1) 1
        have h1 : quadLe (-dot) P (((floorPosQuad (-dot) P : ℤ) : ℚ) + 1) 1 = true := by
          rcases htot with h | h
          · exact h
          · rw [hg2] at h; cases h
        have h2 := (quadLe_neg_iff (-dot) P (((floorPosQuad (-dot) P : ℤ) : ℚ) + 1) 1 hP one_pos).mpr h1
        rw [neg_neg] at h2
        have hcast : ((-floorPosQuad (-dot) P - 1 : ℤ) : ℚ) =
            -(((floorPosQuad (-dot) P : ℤ) : ℚ) + 1) := by push_cast; ring
        rw [hcast]
        exact h2
      · -- `¬ (-g ≤ dot/√P)`: that would be exactly `hint`
        apply Bool.eq_false_iff.mpr
        intro hcontra
        have hcast : ((-floorPosQuad (-dot) P - 1 : ℤ) : ℚ) + 1 =
            -((floorPosQuad (-dot) P : ℤ) : ℚ) := by push_cast; ring
        rw [hcast] at hcontra
        have hcontra' : quadLe (-((floorPosQuad (-dot) P : ℤ) : ℚ)) 1 (- -dot) P = true := by
          rw [neg_neg]; exact hcontra
        exact hint ((quadLe_neg_iff (-dot) P ((floorPosQuad (-dot) P : ℤ) : ℚ) 1 hP one_pos).mp hcontra')

/-- `floorHalf dot P` is `⌊dot/√P + 1/2⌋`, i.e. `Math.round(dot/√P)`:
characterised by `z - 1/2 ≤ dot/√P` and `¬(z + 1/2 ≤ dot/√P)`. -/
theorem floorHalf_spec (dot P : ℚ) (hP : 0 < P) :
    quadLe (((floorHalf dot P : ℤ) : ℚ) - 1 / 2) 1 dot P = true ∧
      quadLe (((floorHalf dot P : ℤ) : ℚ) + 1 / 2) 1 dot P = false := by
  obtain ⟨h1, h2⟩ := floorQuad_spec dot P hP
  unfold floorHalf
  by_cases hc : quadLe (((floorQuad dot P : ℤ) : ℚ) + 1 / 2) 1 dot P = true
  · simp only [hc, if_true]
    constructor
    · have hcast : ((floorQuad dot P + 1 : ℤ) : ℚ) - 1 / 2 =
          ((floorQuad dot P : ℤ) : ℚ) + 1 / 2 := by push_cast; ring
      rw [hcast]
      exact hc
    · apply Bool.eq_false_iff.mpr
      intro hcontra
      have hcast : ((floorQuad dot P + 1 : ℤ) : ℚ) + 1 / 2 =
          ((floorQuad dot P : ℤ) : ℚ) + 3 / 2 := by push_cast; ring
      rw [hcast] at hcontra
      have := quadLe_mono (((floorQuad dot P : ℤ) : ℚ) + 3 / 2)
        (((floorQuad dot P : ℤ) : ℚ) + 1) dot P hP (by linarith) hcontra
      rw [h2] at this
      cases this
  · simp only [hc, if_false]
    refine ⟨?_, Bool.eq_false_iff.mpr hc⟩
    exact quadLe_mono ((floorQuad dot P : ℤ) : ℚ)
      (((floorQuad dot P : ℤ) : ℚ) - 1 / 2) dot P hP (by linarith) h1

/-! ### Cauchy–Schwarz and similarity bounds -/

theorem dotQ_nil (b : List ℚ) : dotQ [] b = 0 := by
  simp [dotQ]

theorem dotQ_nil_right (a : List ℚ) : dotQ a [] = 0 := by
  cases a <;> simp [dotQ]

theorem dotQ_cons (x y : ℚ) (xs ys : List ℚ) :
    dotQ (x :: xs) (y :: ys) = x * y + dotQ xs ys := by
  simp [dotQ]

/-- A self dot product is a sum of squares. -/
theorem dotQ_self_nonneg (a : List ℚ) : 0 ≤ dotQ a a := by
  induction a with
  | nil => simp [dotQ]
  | cons x xs ih =>
    rw [dotQ_cons]
    nlinarith [mul_self_nonneg x]

/-- Discrete Cauchy–Schwarz inequality for `dotQ`. -/
theorem dotQ_sq_le (a : List ℚ) : ∀ b : List ℚ, dotQ a b ^ 2 ≤ dotQ a a * dotQ b b := by
  induction a with
  | nil => intro b; simp [dotQ]
  | cons x xs ih =>
    intro b
    cases b with
    | nil => simp [dotQ_nil_right]
    | cons y ys =>
      rw [dotQ_cons, dotQ_cons, dotQ_cons]
      have hSa := dotQ_self_nonneg xs
      have hSb := dotQ_self_nonneg ys
      have hD := ih ys
      rcases eq_or_lt_of_le hSa with h0 | hpos
      · have hD2 : dotQ xs ys ^ 2 = 0 := by
          have h1 : dotQ xs ys ^ 2 ≤ 0 := by nlinarith [hD, hSb]
          exact le_antisymm h1 (sq_nonneg _)
        have hD0 : dotQ xs ys = 0 := by
          exact pow_eq_zero_iff two_ne_zero |>.mp hD2
        rw [hD0, ← h0]
        nlinarith [sq_nonneg (x * y), mul_nonneg (mul_self_nonneg x) hSb]
      · nlinarith [sq_nonneg (x * dotQ xs ys - y * dotQ xs xs),
          mul_nonneg (add_nonneg (sq_nonneg x) hSa) (sub_nonneg.mpr hD), hpos]

/-- When `dot² ≤ P` (Cauchy–Schwarz), the rounded scaled quotient
`Math.round(100·dot/√P)` lies within `[-100, 100]`. -/
theorem floorHalf_bounds (dot P : ℚ) (hP : 0 < P) (hCS : dot ^ 2 ≤ P) :
    -100 ≤ floorHalf (100 * dot) P ∧ floorHalf (100 * dot) P ≤ 100 := by
  obtain ⟨h1, h2⟩ := floorHalf_spec (100 * dot) P hP
  constructor
  · by_contra h
    push_neg at h
    have hz : ((floorHalf (100 * dot) P : ℤ) : ℚ) + 1 / 2 ≤ -201 / 2 := by
      have hle : (floorHalf (100 * dot) P : ℤ) ≤ -101 := by omega
      have hle' : ((floorHalf (100 * dot) P : ℤ) : ℚ) ≤ -101 := by exact_mod_cast hle
      linarith
    have hq : quadLe (-201 / 2 : ℚ) 1 (100 * dot) P = true := by
      rw [quadLe_iff]
      rcases le_or_lt 0 (100 * dot) with hd | hd
      · exact Or.inl ⟨hd, by norm_num⟩
      · refine Or.inr (Or.inr ⟨hd, by norm_num, ?_⟩)
        nlinarith [hCS, hP]
    have hmono := quadLe_mono (-201 / 2 : ℚ)
      (((floorHalf (100 * dot) P : ℤ) : ℚ) + 1 / 2) (100 * dot) P hP hz hq
    rw [h2] at hmono
    cases hmono
  · by_contra h
    push_neg at h
    have hz : (201 / 2 : ℚ) ≤ ((floorHalf (100 * dot) P : ℤ) : ℚ) - 1 / 2 := by
      have hle : (101 : ℤ) ≤ floorHalf (100 * dot) P := by omega
      have hle' : (101 : ℚ) ≤ ((floorHalf (100 * dot) P : ℤ) : ℚ) := by exact_mod_cast hle
      linarith
    have hmono := quadLe_mono (((floorHalf (100 * dot) P : ℤ) : ℚ) - 1 / 2)
      (201 / 2 : ℚ) (100 * dot) P hP hz h1
    rw [quadLe_iff] at hmono
    rcases hmono with ⟨_, hle⟩ | ⟨_, _, e⟩ | ⟨_, ha, _⟩
    · norm_num at hle
    · nlinarith [hCS, hP]
    · norm_num at ha

/-- The similarity reported for any cosine distance the engine can produce
lies within `[-100, 100]`. -/
theorem jsSimilarity_bounds (a b : List ℚ) :
    -100 ≤ jsSimilarity (cosDistance a b) ∧ jsSimilarity (cosDistance a b) ≤ 100 := by
  unfold cosDistance
  by_cases h : dotQ a a * dotQ b b = 0
  · rw [if_pos h]
    exact ⟨by decide, by decide⟩
  · rw [if_neg h]
    have hP : 0 < dotQ a a * dotQ b b :=
      lt_of_le_of_ne (mul_nonneg (dotQ_self_nonneg a) (dotQ_self_nonneg b)) (Ne.symm h)
    exact floorHalf_bounds (dotQ a b) (dotQ a a * dotQ b b) hP (dotQ_sq_le a b)

/-! ### The insertion sort used by the executable model of `ORDER BY`

`isortD` realises one admissible outcome of the engine contract (it happens
to keep ties in table-scan order; the engine itself promises only
sortedness).  The comparison `distLe` is total outright, but transitive
only on well-formed distance values (positive norm products) — exactly the
values `cosDistance` can produce.  The sorting lemmas therefore carry an
invariant predicate `W` under which transitivity is assumed. -/

theorem insertD_perm {α : Type} (le : α → α → Bool) (x : α) :
    ∀ l : List α, (insertD le x l).Perm (x :: l) := by
  intro l
  induction l with
  | nil => exact List.Perm.refl _
  | cons y ys ih =>
    rw [insertD]
    by_cases h : le y x = true
    · rw [if_pos h]
      exact (ih.cons y).trans (List.Perm.swap x y ys)
    · rw [if_neg h]

theorem mem_insertD_self {α : Type} (le : α → α → Bool) (x : α) (l : List α) :
    x ∈ insertD le x l := by
  induction l with
  | nil => exact List.mem_singleton.mpr rfl
  | cons y ys ih =>
    rw [insertD]
    by_cases h : le y x = true
    · rw [if_pos h]; exact List.mem_cons_of_mem y ih
    · rw [if_neg h]; exact List.mem_cons_self x _

theorem insertD_sublist {α : Type} (le : α → α → Bool) (x : α) (l : List α) :
    l.Sublist (insertD le x l) := by
  induction l with
  | nil => exact List.nil_sublist _
  | cons y ys ih =>
    rw [insertD]
    by_cases h : le y x = true
    · rw [if_pos h]; exact ih.cons₂ y
    · rw [if_neg h]; exact (List.Sublist.refl _).cons x

theorem insertD_sorted {α : Type} (le : α → α → Bool) (W : α → Prop)
    (htot : ∀ a b, le a b = true ∨ le b a = true)
    (htrans : ∀ a b c, W a → W b → W c → le a b = true → le b c = true → le a c = true)
    (x : α) (hWx : W x) : ∀ l : List α, (∀ y ∈ l, W y) →
      l.Pairwise (fun a b => le a b = true) →
      (insertD le x l).Pairwise (fun a b => le a b = true) := by
  intro l
  induction l with
  | nil => intro _ _; exact List.pairwise_singleton _ x
  | cons y ys ih =>
    intro hW hs
    rw [List.pairwise_cons] at hs
    obtain ⟨hy, hys⟩ := hs
    have hWy : W y := hW y (List.mem_cons_self _ _)
    have hWys : ∀ z ∈ ys, W z := fun z hz => hW z (List.mem_cons_of_mem _ hz)
    rw [insertD]
    by_cases h : le y x = true
    · rw [if_pos h]
      rw [List.pairwise_cons]
      refine ⟨?_, ih hWys hys⟩
      intro z hz
      rcases List.mem_cons.mp ((insertD_perm le x ys).mem_iff.mp hz) with hzx | hzy
      · rw [hzx]; exact h
      · exact hy z hzy
    · rw [if_neg h]
      have hxy : le x y = true := (htot x y).resolve_right (by simpa using h)
      rw [List.pairwise_cons]
      constructor
      · intro z hz
        rcases List.mem_cons.mp hz with hzy | hzz
        · rw [hzy]; exact hxy
        · exact htrans x y z hWx hWy (hWys z hzz) hxy (hy z hzz)
      · rw [List.pairwise_cons]
        exact ⟨hy, hys⟩

theorem insertD_tie {α : Type} (le : α → α → Bool) (W : α → Prop)
    (htrans : ∀ a b c, W a → W b → W c → le a b = true → le b c = true → le a c = true)
    (x a : α) (hWx : W x) (hWa : W a) :
    ∀ l : List α, (∀ y ∈ l, W y) → l.Pairwise (fun a b => le a b = true) →
      a ∈ l → le a x = true → [a, x].Sublist (insertD le x l) := by
  intro l
  induction l with
  | nil => intro _ _ ha; cases ha
  | cons y ys ih =>
    intro hW hs ha hax
    rw [List.pairwise_cons] at hs
    obtain ⟨hy, hys⟩ := hs
    have hWy : W y := hW y (List.mem_cons_self _ _)
    have hWys : ∀ z ∈ ys, W z := fun z hz => hW z (List.mem_cons_of_mem _ hz)
    rw [insertD]
    by_cases h : le y x = true
    · rw [if_pos h]
      rcases List.mem_cons.mp ha with hay | hays
      · subst hay
        exact (List.singleton_sublist.mpr (mem_insertD_self le x ys)).cons₂ a
      · exact (ih hWys hys hays hax).cons y
    · rw [if_neg h]
      exfalso
      rcases List.mem_cons.mp ha with hay | hays
      · subst hay; exact h hax
      · exact h (htrans y a x hWy hWa hWx (hy a hays) hax)

/-- The full invariant of the insertion-sort fold: the output is a
permutation of everything seen, it is sorted, and every tied pair keeps the
relative order it had (whether both were in the accumulator, split between
accumulator and input, or both in the input). -/
theorem isortD_fold_invariant {α : Type} (le : α → α → Bool) (W : α → Prop)
    (htot : ∀ a b, le a b = true ∨ le b a = true)
    (htrans : ∀ a b c, W a → W b → W c → le a b = true → le b c = true → le a c = true) :
    ∀ (l acc : List α), (∀ y ∈ l, W y) → (∀ y ∈ acc, W y) →
      acc.Pairwise (fun a b => le a b = true) →
      ((l.foldl (fun acc x => insertD le x acc) acc).Perm (acc ++ l)) ∧
      (l.foldl (fun acc x => insertD le x acc) acc).Pairwise (fun a b => le a b = true) ∧
      (∀ a b, le a b = true → le b a = true →
        (([a, b].Sublist acc) ∨ (a ∈ acc ∧ b ∈ l) ∨ ([a, b].Sublist l)) →
        [a, b].Sublist (l.foldl (fun acc x => insertD le x acc) acc)) := by
  intro l
  induction l with
  | nil =>
    intro acc _ _ hacc
    refine ⟨by simp, hacc, ?_⟩
    intro a b _ _ hsrc
    rcases hsrc with h | ⟨_, hb⟩ | h
    · simpa using h
    · cases hb
    · simp at h
  | cons x xs ih =>
    intro acc hWl hWacc hacc
    have hWx : W x := hWl x (List.mem_cons_self _ _)
    have hWxs : ∀ y ∈ xs, W y := fun y hy => hWl y (List.mem_cons_of_mem _ hy)
    have hWacc2 : ∀ y ∈ insertD le x acc, W y := by
      intro y hy
      rcases List.mem_cons.mp ((insertD_perm le x acc).mem_iff.mp hy) with h | h
      · rw [h]; exact hWx
      · exact hWacc y h
    obtain ⟨hperm, hsort, hstab⟩ := ih (insertD le x acc) hWxs hWacc2
      (insertD_sorted le W htot htrans x hWx acc hWacc hacc)
    refine ⟨?_, hsort, ?_⟩
    · have h1 : (insertD le x acc ++ xs).Perm ((x :: acc) ++ xs) :=
        (insertD_perm le x acc).append_right xs
      have h2 : (x :: (acc ++ xs)).Perm (acc ++ x :: xs) := List.perm_middle.symm
      exact (hperm.trans h1).trans h2
    · intro a b hab hba hsrc
      apply hstab a b hab hba
      rcases hsrc with h | ⟨ha, hb⟩ | h
      · exact Or.inl (h.trans (insertD_sublist le x acc))
      · rcases List.mem_cons.mp hb with hbx | hbxs
        · subst hbx
          exact Or.inl (insertD_tie le W htrans b a hWx (hWacc a ha) acc hWacc hacc ha hab)
        · exact Or.inr (Or.inl ⟨(insertD_sublist le x acc).subset ha, hbxs⟩)
      · cases h with
        | cons _ h2 => exact Or.inr (Or.inr h2)
        | cons₂ _ h2 =>
          exact Or.inr (Or.inl ⟨mem_insertD_self le _ acc, List.singleton_sublist.mp h2⟩)

theorem isortD_perm {α : Type} (le : α → α → Bool) (W : α → Prop)
    (htot : ∀ a b, le a b = true ∨ le b a = true)
    (htrans : ∀ a b c, W a → W b → W c → le a b = true → le b c = true → le a c = true)
    (l : List α) (hWl : ∀ y ∈ l, W y) : (isortD le l).Perm l := by
  have h := (isortD_fold_invariant le W htot htrans l [] hWl (by intro y hy; cases hy)
    List.Pairwise.nil).1
  simpa [isortD] using h

theorem isortD_sorted {α : Type} (le : α → α → Bool) (W : α → Prop)
    (htot : ∀ a b, le a b = true ∨ le b a = true)
    (htrans : ∀ a b c, W a → W b → W c → le a b = true → le b c = true → le a c = true)
    (l : List α) (hWl : ∀ y ∈ l, W y) :
    (isortD le l).Pairwise (fun a b => le a b = true) :=
  (isortD_fold_invariant le W htot htrans l [] hWl (by intro y hy; cases hy)
    List.Pairwise.nil).2.1

theorem isortD_stable {α : Type} (le : α → α → Bool) (W : α → Prop)
    (htot : ∀ a b, le a b = true ∨ le b a = true)
    (htrans : ∀ a b c, W a → W b → W c → le a b = true → le b c = true → le a c = true)
    (l : List α) (hWl : ∀ y ∈ l, W y) (a b : α) (hab : le a b = true)
    (hba : le b a = true) (h : [a, b].Sublist l) : [a, b].Sublist (isortD le l) :=
  (isortD_fold_invariant le W htot htrans l [] hWl (by intro y hy; cases hy)
    List.Pairwise.nil).2.2 a b hab hba (Or.inr (Or.inr h))

/-! ### Order facts for the distance comparison -/

theorem distLe_total : ∀ d e : CosDistance, distLe d e = true ∨ distLe e d = true := by
  intro d e
  cases d with
  | null => exact Or.inl rfl
  | val a Pa =>
    cases e with
    | null => exact Or.inr rfl
    | val b Pb => exact (quadLe_total b Pb a Pa).imp id id

theorem distLe_trans :
    ∀ d e f : CosDistance,
      (∀ dot P, d = CosDistance.val dot P → 0 < P) →
      (∀ dot P, e = CosDistance.val dot P → 0 < P) →
      (∀ dot P, f = CosDistance.val dot P → 0 < P) →
      distLe d e = true → distLe e f = true → distLe d f = true := by
  intro d e f hd he hf h1 h2
  cases d with
  | null => exact rfl
  | val a Pa =>
    cases e with
    | null => cases h1
    | val b Pb =>
      cases f with
      | null => cases h2
      | val c Pc =>
        exact quadLe_trans c Pc b Pb a Pa (hf c Pc rfl) (he b Pb rfl) (hd a Pa rfl) h2 h1

theorem distPairLe_total : ∀ p q : EmbeddingRow × CosDistance,
    distPairLe p q = true ∨ distPairLe q p = true :=
  fun p q => distLe_total p.2 q.2

/-- A distance computed by the engine is well formed: a `val` always carries
a positive norm product. -/
theorem cosDistance_wf (a b : List ℚ) :
    ∀ dot P, cosDistance a b = CosDistance.val dot P → 0 < P := by
  intro dot P h
  unfold cosDistance at h
  by_cases h0 : dotQ a a * dotQ b b = 0
  · rw [if_pos h0] at h; cases h
  · rw [if_neg h0] at h
    injection h with h1 h2
    rw [← h2]
    exact lt_of_le_of_ne (mul_nonneg (dotQ_self_nonneg a) (dotQ_self_nonneg b)) (Ne.symm h0)

theorem toVector_length (v : List JSNum) : (toVector v).length = v.length :=
  List.length_map v _

/-- Successful-path unfolding of `searchSimilar`: on an open store whose
rows all match the query dimension, the result is the stable ascending sort
of the scored rows, truncated by the SQL `LIMIT` semantics. -/
theorem searchSimilar_ok (s : DatabaseService) (qv : List JSNum) (k : ℤ)
    (hopen : s.dbOpen = true)
    (hdim : ∀ r ∈ s.rows, r.embedding.length = (toVector qv).length) :
    searchSimilar s qv k = .ok
      ((if k < 0 then
          isortD distPairLe (s.rows.map (fun r => (r, cosDistance r.embedding (toVector qv))))
        else
          (isortD distPairLe
            (s.rows.map (fun r => (r, cosDistance r.embedding (toVector qv))))).take
            k.toNat).map mkResult) := by
  have hany : (s.rows.any fun r => r.embedding.length != (toVector qv).length) = false := by
    rw [List.any_eq_false]
    intro r hr
    simpa using hdim r hr
  unfold searchSimilar
  rw [hopen]
  rw [if_neg (by simp : ¬ (true = false))]
  simp only [hany, Bool.false_eq_true, if_false]

/-! ### Claim theorems -/

/-- C2: the match-quality classification is a step function of distance with
inclusive `<=` thresholds in ascending order, first match winning: the
boundary distances 0.15, 0.30, 0.45, 0.60 and 0.61 are classified
Excellent, Very Good, Good, Fair and Poor respectively, and every finite
distance is classified by the first threshold interval containing it. -/
theorem C2_quality_boundaries :
    (getMatchQuality (.rat 0.15) = "Excellent" ∧
      getMatchQuality (.rat 0.3) = "Very Good" ∧
      getMatchQuality (.rat 0.45) = "Good" ∧
      getMatchQuality (.rat 0.6) = "Fair" ∧
      getMatchQuality (.rat 0.61) = "Poor") ∧
    (∀ q : ℚ,
      (q ≤ 0.15 → getMatchQuality (.rat q) = "Excellent") ∧
      (0.15 < q → q ≤ 0.3 → getMatchQuality (.rat q) = "Very Good") ∧
      (0.3 < q → q ≤ 0.45 → getMatchQuality (.rat q) = "Good") ∧
      (0.45 < q → q ≤ 0.6 → getMatchQuality (.rat q) = "Fair") ∧
      (0.6 < q → getMatchQuality (.rat q) = "Poor")) := by
  constructor
  · exact ⟨by decide, by decide, by decide, by decide, by decide⟩
  · intro q
    refine ⟨?_, ?_, ?_, ?_, ?_⟩
    · intro h1
      unfold getMatchQuality
      rw [if_pos (by simp [JSNum.le]; exact h1)]
    · intro h1 h2
      unfold getMatchQuality
      rw [if_neg (by simp [JSNum.le]; linarith), if_pos (by simp [JSNum.le]; exact h2)]
    · intro h1 h2
      unfold getMatchQuality
      rw [if_neg (by simp [JSNum.le]; linarith), if_neg (by simp [JSNum.le]; linarith),
        if_pos (by simp [JSNum.le]; exact h2)]
    · intro h1 h2
      unfold getMatchQuality
      rw [if_neg (by simp [JSNum.le]; linarith), if_neg (by simp [JSNum.le]; linarith),
        if_neg (by simp [JSNum.le]; linarith), if_pos (by simp [JSNum.le]; exact h2)]
    · intro h1
      unfold getMatchQuality
      rw [if_neg (by simp [JSNum.le]; linarith), if_neg (by simp [JSNum.le]; linarith),
        if_neg (by simp [JSNum.le]; linarith), if_neg (by simp [JSNum.le]; linarith)]

/-- Witness for C2: the interval characterisation evaluated at 0.2. -/
theorem C2_quality_boundaries_witness :
    ((0.15 : ℚ) < 0.2) ∧ ((0.2 : ℚ) ≤ 0.3) ∧ getMatchQuality (.rat 0.2) = "Very Good" :=
  ⟨by decide, by decide,
    ((C2_quality_boundaries.2 0.2).2.1) (by decide) (by decide)⟩

/-- C10: `getMatchQuality` is total over every JS number and always returns
one of the five labels; every negative distance is classified Excellent
(caught by the `<= 0.15` branch), and a NaN distance falls through every
`<=` comparison and lands on Poor. -/
theorem C10_quality_total (d : JSNum) :
    (getMatchQuality d = "Excellent" ∨ getMatchQuality d = "Very Good" ∨
      getMatchQuality d = "Good" ∨ getMatchQuality d = "Fair" ∨
      getMatchQuality d = "Poor") ∧
    (d = .nan → getMatchQuality d = "Poor") ∧
    (∀ q : ℚ, d = .rat q → q < 0 → getMatchQuality d = "Excellent") := by
  refine ⟨?_, ?_, ?_⟩
  · cases d with
    | nan => right; right; right; right; decide
    | posInf => right; right; right; right; decide
    | negInf => left; decide
    | rat q =>
      unfold getMatchQuality
      by_cases h1 : JSNum.le (.rat q) (.rat 0.15) = true
      · rw [if_pos h1]; left; rfl
      · rw [if_neg h1]
        by_cases h2 : JSNum.le (.rat q) (.rat 0.3) = true
        · rw [if_pos h2]; right; left; rfl
        · rw [if_neg h2]
          by_cases h3 : JSNum.le (.rat q) (.rat 0.45) = true
          · rw [if_pos h3]; right; right; left; rfl
          · rw [if_neg h3]
            by_cases h4 : JSNum.le (.rat q) (.rat 0.6) = true
            · rw [if_pos h4]; right; right; right; left; rfl
            · rw [if_neg h4]; right; right; right; right; rfl
  · intro h; subst h; decide
  · intro q h hq
    subst h
    unfold getMatchQuality
    rw [if_pos (by simp [JSNum.le]; linarith)]

/-- Witness for C10: a negative distance is Excellent. -/
theorem C10_quality_total_witness :
    getMatchQuality (.rat (-1)) = "Excellent" :=
  (C10_quality_total (.rat (-1))).2.2 (-1) rfl (by decide)

/-- C6: `open()` is unconditionally destructive: whatever the prior state,
after `open()` the table is empty, the handle is open, and any search over
the fresh store returns zero records. -/
theorem C6_destructive_open (s : DatabaseService) (qv : List JSNum) (k : ℤ) :
    (openDb s).rows = [] ∧ (openDb s).dbOpen = true ∧
      searchSimilar (openDb s) qv k = .ok [] := by
  refine ⟨rfl, rfl, ?_⟩
  have heq := searchSimilar_ok (openDb s) qv k rfl (by intro r hr; cases hr)
  rw [heq]
  simp [openDb, isortD]

/-- C7 (amended): insert and search issued before `open()` throw the JS
TypeError produced by reading `execute` off the undefined handle — not a
structured NotOpen error — and leave the table unchanged with no results.
(The service has no `close()` operation at all.) -/
theorem C7_not_open (s : DatabaseService) (u c : String) (v qv : List JSNum)
    (k : ℤ) (h : s.dbOpen = false) :
    storeEmbedding s u c v =
      (s, .error (.typeError "Cannot read property execute of undefined")) ∧
    searchSimilar s qv k =
      .error (.typeError "Cannot read property execute of undefined") := by
  constructor
  · unfold storeEmbedding
    rw [if_pos h]
  · unfold searchSimilar
    rw [if_pos h]

/-- Witness for C7. -/
theorem C7_not_open_witness :
    storeEmbedding ⟨false, []⟩ "u" "c" [] =
      (⟨false, []⟩, .error (.typeError "Cannot read property execute of undefined")) ∧
    searchSimilar ⟨false, []⟩ [] 10 =
      .error (.typeError "Cannot read property execute of undefined") :=
  C7_not_open ⟨false, []⟩ "u" "c" [] [] 10 rfl

/-- Counterexample to C7 as stated: the failure before `open()` is a plain
JS TypeError, not the structured `NotOpen` error kind the spec names. -/
theorem C7_counterexample :
    (storeEmbedding ⟨false, []⟩ "u" "c" []).2 =
      .error (.typeError "Cannot read property execute of undefined") ∧
    JsError.typeError "Cannot read property execute of undefined" ≠ JsError.notOpen := by
  exact ⟨by decide, by decide⟩

/-- C8 (amended): `storeEmbedding` performs no content validation at all: an
empty content string is accepted and persisted verbatim like any other. -/
theorem C8_no_content_validation (s : DatabaseService) (u : String)
    (v : List JSNum) (hopen : s.dbOpen = true) (hlen : v.length = vectorDimension)
    (hfresh : ∀ r ∈ s.rows, r.uuid ≠ u) :
    storeEmbedding s u "" v =
      ({ s with rows := s.rows ++ [⟨u, "", toVector v⟩] }, .ok u) := by
  unfold storeEmbedding
  rw [if_neg (by rw [hopen]; simp)]
  rw [if_neg (by rw [toVector_length, hlen]; simp)]
  rw [if_neg ?hfresh]
  case hfresh =>
    rw [Bool.not_eq_true, List.any_eq_false]
    intro r hr
    simpa using hfresh r hr

/-- Witness for C8: the empty string is stored on a fresh open store. -/
theorem C8_no_content_validation_witness :
    storeEmbedding ⟨true, []⟩ "u" "" (List.replicate 512 (.rat 0)) =
      (⟨true, [⟨"u", "", toVector (List.replicate 512 (.rat 0))⟩]⟩, .ok "u") :=
  C8_no_content_validation ⟨true, []⟩ "u" (List.replicate 512 (.rat 0)) rfl
    (by rw [List.length_replicate]; rfl) (by intro r hr; cases hr)

/-- Counterexample to C8 as stated: an empty content string is not rejected
with `InvalidInput`; the insert succeeds and the record is persisted. -/
theorem C8_counterexample :
    storeEmbedding ⟨true, []⟩ "u" "" (List.replicate 512 (.rat 0)) =
      (⟨true, [⟨"u", "", List.replicate 512 0⟩]⟩, .ok "u") := by
  have h := C8_no_content_validation ⟨true, []⟩ "u" (List.replicate 512 (.rat 0)) rfl
    (by rw [List.length_replicate]; rfl) (by intro r hr; cases hr)
  rw [h]
  unfold toVector
  rw [List.map_replicate]
  rfl

/-- C4 (amended): a store with a vector of length ≠ 512 always fails with
the engine's dimension-mismatch error and leaves the table untouched; a
search with a query vector of length ≠ 512 fails the same way whenever at
least one record is stored, but on an empty table the distance expression
is never evaluated and the search succeeds with zero results. -/
theorem C4_dimension_guard :
    (∀ (s : DatabaseService) (u c : String) (v : List JSNum), s.dbOpen = true →
      v.length ≠ vectorDimension →
      storeEmbedding s u c v = (s, .error .dimensionMismatch)) ∧
    (∀ (s : DatabaseService) (qv : List JSNum) (k : ℤ), s.dbOpen = true →
      (∀ r ∈ s.rows, r.embedding.length = vectorDimension) →
      qv.length ≠ vectorDimension →
      (s.rows = [] → searchSimilar s qv k = .ok []) ∧
      (s.rows ≠ [] → searchSimilar s qv k = .error .dimensionMismatch)) := by
  constructor
  · intro s u c v hopen hlen
    unfold storeEmbedding
    rw [if_neg (by rw [hopen]; simp)]
    rw [if_pos (by rw [toVector_length]; exact hlen)]
  · intro s qv k hopen hdim hlen
    constructor
    · intro hnil
      have heq := searchSimilar_ok s qv k hopen (by rw [hnil]; intro r hr; cases hr)
      rw [heq, hnil]
      simp [isortD]
    · intro hne
      unfold searchSimilar
      rw [if_neg (by rw [hopen]; simp)]
      rw [if_pos ?any]
      case any =>
        rw [List.any_eq_true]
        obtain ⟨r, hr⟩ := List.exists_mem_of_ne_nil s.rows hne
        refine ⟨r, hr, ?_⟩
        rw [toVector_length]
        simp only [bne_iff_ne, ne_eq]
        rw [hdim r hr]
        exact fun hh => hlen hh.symm

/-- Witness for C4: a wrong-length store fails and a wrong-length search on
a one-record store fails, while the same search on the empty store
succeeds. -/
theorem C4_dimension_guard_witness :
    storeEmbedding ⟨true, []⟩ "u" "c" [.rat 1] = (⟨true, []⟩, .error .dimensionMismatch) ∧
    searchSimilar ⟨true, [⟨"a", "x", List.replicate 512 0⟩]⟩ [.rat 1] 10 =
      .error .dimensionMismatch :=
  ⟨C4_dimension_guard.1 ⟨true, []⟩ "u" "c" [.rat 1] rfl (by decide),
    (C4_dimension_guard.2 ⟨true, [⟨"a", "x", List.replicate 512 0⟩]⟩ [.rat 1] 10 rfl
      (by intro r hr; cases hr with
        | head => rw [List.length_replicate]; rfl
        | tail _ h => cases h) (by decide)).2 (by intro h; cases h)⟩

/-- Counterexample to C4 as stated: a query vector of length 1 ≠ 512 against
an empty store does not fail with a dimension mismatch — the search
succeeds and returns the empty result list. -/
theorem C4_counterexample :
    ([JSNum.rat 1].length ≠ vectorDimension) ∧
    searchSimilar ⟨true, []⟩ [.rat 1] 10 = .ok [] :=
  ⟨by decide, by decide⟩

/-- C5: storing a non-empty content with a 512-component vector appends
exactly one record carrying the content verbatim and the vector with every
non-finite component replaced by 0 (finite components unchanged); scanning
for the fresh identifier finds exactly that one record. -/
theorem C5_round_trip (s : DatabaseService) (u x : String) (v : List JSNum)
    (hopen : s.dbOpen = true) (hx : x ≠ "") (hlen : v.length = vectorDimension)
    (hfresh : ∀ r ∈ s.rows, r.uuid ≠ u) :
    ∃ w : List ℚ,
      storeEmbedding s u x v = ({ s with rows := s.rows ++ [⟨u, x, w⟩] }, .ok u) ∧
      w.length = v.length ∧
      (∀ (i : ℕ) (hv : i < v.length) (hw : i < w.length),
        (∀ q : ℚ, v.get ⟨i, hv⟩ = .rat q → w.get ⟨i, hw⟩ = q) ∧
        ((v.get ⟨i, hv⟩).isFinite = false → w.get ⟨i, hw⟩ = 0)) ∧
      (storeEmbedding s u x v).1.rows.filter (fun r => r.uuid == u) = [⟨u, x, w⟩] := by
  have heq : storeEmbedding s u x v =
      ({ s with rows := s.rows ++ [⟨u, x, toVector v⟩] }, .ok u) := by
    unfold storeEmbedding
    rw [if_neg (by rw [hopen]; simp)]
    rw [if_neg (by rw [toVector_length, hlen]; simp)]
    rw [if_neg ?fresh]
    case fresh =>
      rw [Bool.not_eq_true, List.any_eq_false]
      intro r hr
      simpa using hfresh r hr
  refine ⟨toVector v, heq, toVector_length v, ?_, ?_⟩
  · intro i hv hw
    have hmap : (toVector v).get ⟨i, hw⟩ =
        (fun n => match n with | JSNum.rat q => q | _ => 0) (v.get ⟨i, hv⟩) := by
      simp [toVector]
    constructor
    · intro q hq
      rw [hmap, hq]
    · intro hnf
      rw [hmap]
      cases hvi : v.get ⟨i, hv⟩ with
      | rat q => rw [hvi] at hnf; simp [JSNum.isFinite] at hnf
      | nan => rfl
      | posInf => rfl
      | negInf => rfl
  · rw [heq]
    simp only [List.filter_append]
    have h1 : s.rows.filter (fun r => r.uuid == u) = [] := by
      rw [List.filter_eq_nil_iff]
      intro r hr
      simpa using hfresh r hr
    rw [h1]
    simp

/-- Witness for C5: storing `[NaN, 1, 0, …, 0]` persists `[0, 1, 0, …, 0]`. -/
theorem C5_round_trip_witness :
    ∃ w : List ℚ,
      storeEmbedding ⟨true, []⟩ "u" "x" (.nan :: .rat 1 :: List.replicate 510 (.rat 0)) =
        (⟨true, [⟨"u", "x", w⟩]⟩, .ok "u") ∧
      w.length = (JSNum.nan :: .rat 1 :: List.replicate 510 (.rat 0)).length ∧
      (∀ (i : ℕ) (hv : i < (JSNum.nan :: .rat 1 :: List.replicate 510 (.rat 0)).length)
        (hw : i < w.length),
        (∀ q : ℚ, (JSNum.nan :: .rat 1 :: List.replicate 510 (.rat 0)).get ⟨i, hv⟩ = .rat q →
          w.get ⟨i, hw⟩ = q) ∧
        (((JSNum.nan :: .rat 1 :: List.replicate 510 (.rat 0)).get ⟨i, hv⟩).isFinite = false →
          w.get ⟨i, hw⟩ = 0)) ∧
      (storeEmbedding ⟨true, []⟩ "u" "x"
        (.nan :: .rat 1 :: List.replicate 510 (.rat 0))).1.rows.filter
          (fun r => r.uuid == "u") = [⟨"u", "x", w⟩] :=
  C5_round_trip ⟨true, []⟩ "u" "x" (.nan :: .rat 1 :: List.replicate 510 (.rat 0)) rfl
    (by decide) (by rw [List.length_cons, List.length_cons, List.length_replicate]; rfl)
    (by intro r hr; cases hr)

/-- The identifiers of the full ranking are a permutation of the stored
identifiers. -/
theorem sorted_ids_perm (s : DatabaseService) (q : List ℚ) :
    ((isortD distPairLe (s.rows.map fun r => (r, cosDistance r.embedding q))).map
      (fun p => p.1.uuid)).Perm (s.rows.map EmbeddingRow.uuid) := by
  have hW : ∀ p ∈ (s.rows.map fun r => (r, cosDistance r.embedding q)),
      ∀ dot P, (p : EmbeddingRow × CosDistance).2 = CosDistance.val dot P → 0 < P := by
    intro p hp dot P hval
    obtain ⟨r, _, hpr⟩ := List.mem_map.mp hp
    rw [← hpr] at hval
    exact cosDistance_wf r.embedding q dot P hval
  have htransW : ∀ a b c : EmbeddingRow × CosDistance,
      (∀ dot P, a.2 = CosDistance.val dot P → 0 < P) →
      (∀ dot P, b.2 = CosDistance.val dot P → 0 < P) →
      (∀ dot P, c.2 = CosDistance.val dot P → 0 < P) →
      distPairLe a b = true → distPairLe b c = true → distPairLe a c = true :=
    fun a b c wa wb wc h1 h2 => distLe_trans a.2 b.2 c.2 wa wb wc h1 h2
  have hperm := isortD_perm distPairLe _ distPairLe_total htransW
    (s.rows.map fun r => (r, cosDistance r.embedding q)) hW
  have h := hperm.map (fun p : EmbeddingRow × CosDistance => p.1.uuid)
  rw [List.map_map] at h
  exact h

/-- C9 (amended): on an open, dimension-consistent store, `search` with
`k = 0` returns the empty sequence; `search` with negative `k` returns all
records (SQLite treats a negative LIMIT as unbounded); `search` with `k`
at least the record count returns all records. -/
theorem C9_limit_semantics (s : DatabaseService) (qv : List JSNum)
    (hopen : s.dbOpen = true)
    (hdim : ∀ r ∈ s.rows, r.embedding.length = (toVector qv).length) :
    (searchSimilar s qv 0 = .ok []) ∧
    (∀ k : ℤ, k < 0 → ∃ res, searchSimilar s qv k = .ok res ∧
      res.length = s.rows.length ∧
      (res.map SearchResult.id).Perm (s.rows.map EmbeddingRow.uuid)) ∧
    (∀ k : ℤ, 0 ≤ k → s.rows.length ≤ k.toNat → ∃ res, searchSimilar s qv k = .ok res ∧
      res.length = s.rows.length ∧
      (res.map SearchResult.id).Perm (s.rows.map EmbeddingRow.uuid)) := by
  have hids := sorted_ids_perm s (toVector qv)
  have hlen_sorted :
      (isortD distPairLe (s.rows.map fun r => (r, cosDistance r.embedding (toVector qv)))).length
        = s.rows.length := by
    have h := hids.length_eq
    rw [List.length_map, List.length_map] at h
    exact h
  have hall :
      ((isortD distPairLe (s.rows.map fun r => (r, cosDistance r.embedding (toVector qv)))).map
        mkResult).length = s.rows.length ∧
      (((isortD distPairLe (s.rows.map fun r => (r, cosDistance r.embedding (toVector qv)))).map
        mkResult).map SearchResult.id).Perm (s.rows.map EmbeddingRow.uuid) := by
    constructor
    · rw [List.length_map, hlen_sorted]
    · rw [List.map_map]
      exact hids
  refine ⟨?_, ?_, ?_⟩
  · have heq := searchSimilar_ok s qv 0 hopen hdim
    rw [if_neg (by decide)] at heq
    simpa using heq
  · intro k hk
    have heq := searchSimilar_ok s qv k hopen hdim
    rw [if_pos hk] at heq
    exact ⟨_, heq, hall.1, hall.2⟩
  · intro k hk hcount
    have heq := searchSimilar_ok s qv k hopen hdim
    rw [if_neg (not_lt.mpr hk)] at heq
    rw [List.take_of_length_le (by rw [hlen_sorted]; exact hcount)] at heq
    exact ⟨_, heq, hall.1, hall.2⟩

/-- Witness for C9: `k = 0` on a concrete one-record store yields no rows. -/
theorem C9_limit_semantics_witness :
    searchSimilar ⟨true, [⟨"a", "x", [1]⟩]⟩ [.rat 1] 0 = .ok [] :=
  (C9_limit_semantics ⟨true, [⟨"a", "x", [1]⟩]⟩ [.rat 1] rfl
    (by intro r hr; cases hr with
      | head => rfl
      | tail _ h => cases h)).1

/-- Counterexample to C9 as stated: `k = -1` (≤ 0) on a one-record store
returns that record, not the empty sequence — SQLite treats a negative
LIMIT as "no limit". -/
theorem C9_counterexample :
    ((-1 : ℤ) ≤ 0) ∧
    searchSimilar ⟨true, [⟨"a", "x", [1]⟩]⟩ [.rat 1] (-1) =
      .ok [⟨"x", 100, "a", "Excellent", .val 1 1⟩] ∧
    (Except.ok [(⟨"x", 100, "a", "Excellent", .val 1 1⟩ : SearchResult)] ≠
      (.ok [] : Except JsError (List SearchResult))) :=
  ⟨by decide, by decide, by decide⟩

/-- C3 (amended): the reported similarity is `Math.round((1 − distance)·100)`
with no clamping; since the engine's cosine distance always lies in `[0, 2]`
(Cauchy–Schwarz), every reported similarity lies in `[-100, 100]`.  It is
not clamped to `[0, 100]`: at distance 2 the reported value is −100. -/
theorem C3_similarity_bounds (s : DatabaseService) (qv : List JSNum) (k : ℤ)
    (res : List SearchResult) (h : searchSimilar s qv k = .ok res) :
    ∀ r ∈ res, -100 ≤ r.similarity ∧ r.similarity ≤ 100 := by
  intro r hr
  by_cases hopen : s.dbOpen = false
  · unfold searchSimilar at h
    rw [if_pos hopen] at h
    cases h
  · have hopen' : s.dbOpen = true := by
      revert hopen; cases s.dbOpen <;> simp
    by_cases hany : (s.rows.any fun rr => rr.embedding.length != (toVector qv).length) = true
    · unfold searchSimilar at h
      rw [if_neg (by rw [hopen']; simp)] at h
      rw [if_pos hany] at h
      cases h
    · have hdim : ∀ rr ∈ s.rows, rr.embedding.length = (toVector qv).length := by
        rw [List.any_eq_true] at hany
        push_neg at hany
        intro rr hrr
        have := hany rr hrr
        simpa using this
      have heq := searchSimilar_ok s qv k hopen' hdim
      rw [heq] at h
      injection h with h'
      rw [← h'] at hr
      obtain ⟨p, hp, hpr⟩ := List.mem_map.mp hr
      have hp_sorted : p ∈ isortD distPairLe
          (s.rows.map fun rr => (rr, cosDistance rr.embedding (toVector qv))) := by
        by_cases hk : k < 0
        · rw [if_pos hk] at hp; exact hp
        · rw [if_neg hk] at hp; exact List.take_subset _ _ hp
      have hW : ∀ p ∈ (s.rows.map fun rr => (rr, cosDistance rr.embedding (toVector qv))),
          ∀ dot P, (p : EmbeddingRow × CosDistance).2 = CosDistance.val dot P → 0 < P := by
        intro p hp dot P hval
        obtain ⟨rr, _, hpr2⟩ := List.mem_map.mp hp
        rw [← hpr2] at hval
        exact cosDistance_wf rr.embedding (toVector qv) dot P hval
      have htransW : ∀ a b c : EmbeddingRow × CosDistance,
          (∀ dot P, a.2 = CosDistance.val dot P → 0 < P) →
          (∀ dot P, b.2 = CosDistance.val dot P → 0 < P) →
          (∀ dot P, c.2 = CosDistance.val dot P → 0 < P) →
          distPairLe a b = true → distPairLe b c = true → distPairLe a c = true :=
        fun a b c wa wb wc h1 h2 => distLe_trans a.2 b.2 c.2 wa wb wc h1 h2
      have hperm := isortD_perm distPairLe _ distPairLe_total htransW
        (s.rows.map fun rr => (rr, cosDistance rr.embedding (toVector qv))) hW
      have hp_scored := hperm.subset hp_sorted
      obtain ⟨row, _, hpair⟩ := List.mem_map.mp hp_scored
      rw [← hpr, ← hpair]
      exact jsSimilarity_bounds row.embedding (toVector qv)

/-- Witness for C3: on a two-component store with an opposed query, the
single result's similarity is −100, inside the proved bounds. -/
theorem C3_similarity_bounds_witness :
    -100 ≤ (⟨"a", -100, "u1", "Poor", .val (-1) 1⟩ : SearchResult).similarity ∧
    (⟨"a", -100, "u1", "Poor", .val (-1) 1⟩ : SearchResult).similarity ≤ 100 :=
  C3_similarity_bounds ⟨true, [⟨"u1", "a", [1, 0]⟩]⟩ [.rat (-1), .rat 0] 10
    [⟨"a", -100, "u1", "Poor", .val (-1) 1⟩] (by decide)
    ⟨"a", -100, "u1", "Poor", .val (-1) 1⟩ (by decide)

/-- Counterexample to C3 as stated: a stored vector `[1,0]` queried with
`[-1,0]` has cosine distance 2, and the code reports similarity −100 — the
value is negative, so it is not clamped to `[0, 100]`. -/
theorem C3_counterexample :
    searchSimilar ⟨true, [⟨"u1", "a", [1, 0]⟩]⟩ [.rat (-1), .rat 0] 10 =
      .ok [⟨"a", -100, "u1", "Poor", .val (-1) 1⟩] ∧
    ((-100 : ℤ) < 0) :=
  ⟨by decide, by decide⟩

/-- C1 (amended): on an open, dimension-consistent store and `k ≥ 0`, the
search returns an admissible outcome of the documented engine contract, and
EVERY admissible outcome consists of the `k` stored records (or all of
them, if fewer exist) whose cosine distance to the query is globally
smallest, in non-decreasing distance order: the result extends to a full
ranking of the store and no returned record is farther from the query than
an omitted one.  The relative order of exactly tied records — and which
tied records survive the cut — is not part of the contract. -/
theorem C1_topk_admissible (s : DatabaseService) (qv : List JSNum) (k : ℤ)
    (hopen : s.dbOpen = true)
    (hdim : ∀ r ∈ s.rows, r.embedding.length = (toVector qv).length)
    (hk : 0 ≤ k) :
    (∃ res, searchSimilar s qv k = .ok res ∧ searchAdmissible s qv k res) ∧
    (∀ res, searchAdmissible s qv k res →
      res.length = min k.toNat s.rows.length ∧
      res.Pairwise (fun a b => distLe a.distance b.distance = true) ∧
      ∃ rest : List SearchResult,
        (res ++ rest).Perm
          (s.rows.map fun r => mkResult (r, cosDistance r.embedding (toVector qv))) ∧
        (∀ a ∈ res, ∀ b ∈ rest, distLe a.distance b.distance = true)) := by
  constructor
  · -- the implementation's deterministic output is one admissible outcome
    have heq := searchSimilar_ok s qv k hopen hdim
    refine ⟨_, heq, ?_⟩
    have hW : ∀ p ∈ (s.rows.map fun r => (r, cosDistance r.embedding (toVector qv))),
        ∀ dot P, (p : EmbeddingRow × CosDistance).2 = CosDistance.val dot P → 0 < P := by
      intro p hp dot P hval
      obtain ⟨r, _, hpr⟩ := List.mem_map.mp hp
      rw [← hpr] at hval
      exact cosDistance_wf r.embedding (toVector qv) dot P hval
    have htransW : ∀ a b c : EmbeddingRow × CosDistance,
        (∀ dot P, a.2 = CosDistance.val dot P → 0 < P) →
        (∀ dot P, b.2 = CosDistance.val dot P → 0 < P) →
        (∀ dot P, c.2 = CosDistance.val dot P → 0 < P) →
        distPairLe a b = true → distPairLe b c = true → distPairLe a c = true :=
      fun a b c wa wb wc h1 h2 => distLe_trans a.2 b.2 c.2 wa wb wc h1 h2
    exact ⟨isortD distPairLe (s.rows.map fun r => (r, cosDistance r.embedding (toVector qv))),
      isortD_perm distPairLe _ distPairLe_total htransW _ hW,
      isortD_sorted distPairLe _ distPairLe_total htransW _ hW, rfl⟩
  · intro res hres
    obtain ⟨ranking, hperm, hsort, hres_eq⟩ := hres
    rw [if_neg (not_lt.mpr hk)] at hres_eq
    subst hres_eq
    have hlen : ranking.length = s.rows.length := by
      have h := hperm.length_eq
      rw [List.length_map] at h
      exact h
    refine ⟨?_, ?_, (ranking.drop k.toNat).map mkResult, ?_, ?_⟩
    · rw [List.length_map, List.length_take, hlen]
    · exact List.Pairwise.map mkResult (fun a b h => h)
        (hsort.sublist (List.take_sublist k.toNat ranking))
    · rw [← List.map_append, List.take_append_drop]
      have h1 := hperm.map mkResult
      rw [List.map_map] at h1
      exact h1
    · intro a ha b hb
      obtain ⟨pa, hpa_mem, hpa⟩ := List.mem_map.mp ha
      obtain ⟨pb, hpb_mem, hpb⟩ := List.mem_map.mp hb
      have hcross : ∀ x ∈ ranking.take k.toNat, ∀ y ∈ ranking.drop k.toNat,
          distPairLe x y = true := by
        have h := hsort
        rw [← List.take_append_drop k.toNat ranking, List.pairwise_append] at h
        exact h.2.2
      rw [← hpa, ← hpb]
      exact hcross pa hpa_mem pb hpb_mem

/-- Witness for C1: the spec's cat/dog store queried with the cat vector at
`k = 2`. -/
theorem C1_topk_admissible_witness :
    (∃ res, searchSimilar
        ⟨true, [⟨"u1", "cat", [1, 0, 0, 0]⟩, ⟨"u2", "dog", [9/10, 1/10, 0, 0]⟩]⟩
        [.rat 1, .rat 0, .rat 0, .rat 0] 2 = .ok res ∧
      searchAdmissible
        ⟨true, [⟨"u1", "cat", [1, 0, 0, 0]⟩, ⟨"u2", "dog", [9/10, 1/10, 0, 0]⟩]⟩
        [.rat 1, .rat 0, .rat 0, .rat 0] 2 res) ∧
    (∀ res, searchAdmissible
        ⟨true, [⟨"u1", "cat", [1, 0, 0, 0]⟩, ⟨"u2", "dog", [9/10, 1/10, 0, 0]⟩]⟩
        [.rat 1, .rat 0, .rat 0, .rat 0] 2 res →
      res.length = min (2 : ℤ).toNat
        ([⟨"u1", "cat", [1, 0, 0, 0]⟩, ⟨"u2", "dog", [9/10, 1/10, 0, 0]⟩] :
          List EmbeddingRow).length ∧
      res.Pairwise (fun a b => distLe a.distance b.distance = true) ∧
      ∃ rest : List SearchResult,
        (res ++ rest).Perm
          (([⟨"u1", "cat", [1, 0, 0, 0]⟩, ⟨"u2", "dog", [9/10, 1/10, 0, 0]⟩] :
            List EmbeddingRow).map fun r => mkResult
              (r, cosDistance r.embedding (toVector [.rat 1, .rat 0, .rat 0, .rat 0]))) ∧
        (∀ a ∈ res, ∀ b ∈ rest, distLe a.distance b.distance = true)) :=
  C1_topk_admissible
    ⟨true, [⟨"u1", "cat", [1, 0, 0, 0]⟩, ⟨"u2", "dog", [9/10, 1/10, 0, 0]⟩]⟩
    [.rat 1, .rat 0, .rat 0, .rat 0] 2 rfl (by decide) (by decide)

/-- Counterexample to C1 as stated: two records tied at distance 0.  Under
the engine's documented contract the reversed order is an admissible
outcome of `search` at `k = 2`, and it lists the exactly tied records
AGAINST table-scan order (no sublist pair of the table realises the
returned id order); at `k = 1` the scan-later record alone is likewise
admissible, so even the returned set is not determined by the claim's
scan-order rule. -/
theorem C1_counterexample :
    searchAdmissible ⟨true, [⟨"u1", "a", [1, 0]⟩, ⟨"u2", "b", [1, 0]⟩]⟩
      [.rat 1, .rat 0] 2
      [⟨"b", 100, "u2", "Excellent", .val 1 1⟩, ⟨"a", 100, "u1", "Excellent", .val 1 1⟩] ∧
    distLe (CosDistance.val 1 1) (CosDistance.val 1 1) = true ∧
    ¬ (∃ w₁ w₂ : EmbeddingRow,
        [w₁, w₂].Sublist [⟨"u1", "a", [1, 0]⟩, ⟨"u2", "b", [1, 0]⟩] ∧
        w₁.uuid = "u2" ∧ w₂.uuid = "u1") ∧
    searchAdmissible ⟨true, [⟨"u1", "a", [1, 0]⟩, ⟨"u2", "b", [1, 0]⟩]⟩
      [.rat 1, .rat 0] 1
      [⟨"b", 100, "u2", "Excellent", .val 1 1⟩] := by
  refine ⟨?_, by decide, ?_, ?_⟩
  · exact ⟨[(⟨"u2", "b", [1, 0]⟩, .val 1 1), (⟨"u1", "a", [1, 0]⟩, .val 1 1)],
      List.Perm.swap _ _ _, by decide, by decide⟩
  · rintro ⟨w1, w2, hsub, h1, h2⟩
    cases hsub with
    | cons _ h =>
      cases h with
      | cons _ h2t => cases h2t
      | cons₂ _ h2t => cases h2t
    | cons₂ _ h =>
      exact absurd h1 (by decide)
  · exact ⟨[(⟨"u2", "b", [1, 0]⟩, .val 1 1), (⟨"u1", "a", [1, 0]⟩, .val 1 1)],
      List.Perm.swap _ _ _, by decide, by decide⟩
